import Mathlib

/-!
# Verification of `mozsvc.secrets`

A shallow embedding of the secret-management classes of `mozsvc/secrets.py`
(`Secrets`, `FixedSecrets`, `DerivedSecrets`) together with proofs of the
specified properties.

Python byte strings are modelled as `List Nat` (one `Nat` per byte).
Python's lexicographic byte-string comparison, tuple comparison, `str.split`,
`str(int(...))`, `binascii.b2a_hex` and the stable `list.sort` are embedded
explicitly.  Mutation of the `defaultdict(list)` backing `Secrets._secrets`
is embedded by explicit state passing over an insertion-ordered association
list (Python dicts preserve insertion order).
-/

/-- A Python byte string: a list of byte values. -/
abbrev Bytes := List Nat

/-- Lexicographic `<=` on byte strings, as Python compares `bytes`. -/
def bytesLeB : Bytes → Bytes → Bool
  | [], _ => true
  | _ :: _, [] => false
  | a :: as, b :: bs =>
    if a < b then true
    else if b < a then false
    else bytesLeB as bs

/-- Lexicographic `<` on byte strings (`a < b` iff not `b <= a`). -/
def bytesLtB (a b : Bytes) : Bool := !bytesLeB b a

/-- Python tuple comparison `(t1, s1) <= (t2, s2)`: compare first components,
break ties on the second. -/
def pairLeB (a b : Bytes × Bytes) : Bool :=
  if a.1 = b.1 then bytesLeB a.2 b.2 else bytesLtB a.1 b.1

/-- The `pairLeB` ordering as a decidable relation, used for `list.sort`. -/
def pairLeP (a b : Bytes × Bytes) : Prop := pairLeB a b = true

instance : DecidableRel pairLeP := fun a b => by
  unfold pairLeP; infer_instance

/-- Python `s.split(sep)` for a one-byte separator `c`: splits on every
occurrence, keeping empty pieces (so `"".split(c) = [""]`). -/
def splitByte (c : Nat) : Bytes → List Bytes
  | [] => [[]]
  | a :: rest =>
    match splitByte c rest with
    | [] => [[]]
    | h :: t => if a = c then [] :: h :: t else (a :: h) :: t

/-- The colon byte `:` used to separate timestamp from secret in a field. -/
def colonByte : Nat := 58

/-- The byte of a decimal digit. -/
def digitByte (n : Nat) : Nat := 48 + n % 10

/-- Helper for `natDigits`, with fuel. -/
def natDigitsAux : Nat → Nat → Bytes → Bytes
  | 0, _, acc => acc
  | fuel + 1, n, acc =>
    if n < 10 then digitByte n :: acc
    else natDigitsAux fuel (n / 10) (digitByte (n % 10) :: acc)

/-- Python `str(n)` for a natural number, as a byte string of decimal digits
(`str(int(time.time()))` in `Secrets.add`). -/
def natDigits (n : Nat) : Bytes := natDigitsAux (n + 1) n []

/-- The numeric value of a byte string of decimal digits (the "decimal
integer Unix seconds" reading of a stored timestamp). -/
def decimalVal (b : Bytes) : Nat := b.foldl (fun acc d => acc * 10 + (d - 48)) 0

/-- The lower-case hex digit byte for `n % 16` (as `binascii.b2a_hex`). -/
def hexDigitByte (n : Nat) : Nat :=
  let m := n % 16
  if m < 10 then 48 + m else 87 + m

/-- `binascii.b2a_hex`: each byte becomes two lower-case hex digit bytes. -/
def b2aHex (bs : Bytes) : Bytes :=
  bs.flatMap (fun b => [hexDigitByte (b / 16), hexDigitByte b])

/-- The bytes of an ASCII string literal. -/
def strBytes (s : String) : Bytes := s.data.map Char.toNat

/-- Is `b` a lower-case hex digit byte (`0`-`9`, `a`-`f`)? -/
def isHexDigitByte (b : Nat) : Bool :=
  (48 ≤ b && b ≤ 57) || (97 ≤ b && b ≤ 102)

/-! ## The `Secrets` class

`Secrets._secrets` is a `defaultdict(list)` from node name to a list of
`(timestamp, secret)` byte-string pairs.  It is embedded as an
insertion-ordered association list; `defaultdict` lookup inserts a missing
key with an empty list, so operations that read through it return the new
state as well. -/

/-- The state of a `Secrets` instance: the `_secrets` mapping, an
insertion-ordered association list from node to `(timestamp, secret)`
pairs. -/
structure Secrets where
  secrets : List (Bytes × List (Bytes × Bytes))
  deriving DecidableEq, Repr

/-- `Secrets()`: the store starts empty. -/
def emptySecrets : Secrets := ⟨[]⟩

/-- First value bound to `node`, if any (`node in self._secrets` / plain
dict read). -/
def assocFind (node : Bytes) : List (Bytes × List (Bytes × Bytes)) →
    Option (List (Bytes × Bytes))
  | [] => none
  | (k, v) :: rest => if k = node then some v else assocFind node rest

/-- Replace the value bound to `node`, keeping its position
(`self._secrets[node] = v` for a present key, or in-place mutation). -/
def assocSet (node : Bytes) (v : List (Bytes × Bytes)) :
    List (Bytes × List (Bytes × Bytes)) → List (Bytes × List (Bytes × Bytes))
  | [] => []
  | (k, w) :: rest =>
    if k = node then (k, v) :: rest else (k, w) :: assocSet node v rest

/-- `self._secrets.keys()`, in dict insertion order. -/
def Secrets.keys (s : Secrets) : List Bytes := s.secrets.map Prod.fst

/-- `defaultdict` read `self._secrets[node]`: returns the bound list, and
inserts the key bound to `[]` (at the end, in insertion order) when it is
missing. -/
def Secrets.dread (s : Secrets) (node : Bytes) :
    List (Bytes × Bytes) × Secrets :=
  match assocFind node s.secrets with
  | some l => (l, s)
  | none => ([], ⟨s.secrets ++ [(node, [])]⟩)

/-- `Secrets.get(node)`: the node's secrets in stored order (a `defaultdict`
read, so an unknown node is inserted with an empty list). -/
def Secrets.get (s : Secrets) (node : Bytes) : List Bytes × Secrets :=
  let (l, s') := s.dread node
  (l.map Prod.snd, s')

/-- Errors raised by `Secrets.load` (both are `ValueError` in the source). -/
inductive LoadError where
  | duplicateNode
  | invalidSecret
  deriving DecidableEq, Repr

instance exceptDecEq {e a : Type} [DecidableEq e] [DecidableEq a] :
    DecidableEq (Except e a) := fun x y =>
  match x, y with
  | .ok v, .ok w =>
    if h : v = w then .isTrue (by rw [h])
    else .isFalse (by intro he; injection he; exact h (by assumption))
  | .ok _, .error _ => .isFalse (fun he => Except.noConfusion he)
  | .error _, .ok _ => .isFalse (fun he => Except.noConfusion he)
  | .error u, .error w =>
    if h : u = w then .isTrue (by rw [h])
    else .isFalse (by intro he; injection he; exact h (by assumption))

/-- Parse one `timestamp:secret` field: split on the colon and require
exactly two parts (`raise ValueError("Invalid secret ...")` otherwise). -/
def parseSecretField (field : Bytes) : Except LoadError (Bytes × Bytes) :=
  match splitByte colonByte field with
  | [a, b] => .ok (a, b)
  | _ => .error .invalidSecret

/-- The `for secret in row[1:]` loop of `Secrets.load`: parse each
`timestamp:secret` field in order, accumulating the pairs; the first bad
field raises. -/
def parseFields : List Bytes → Except LoadError (List (Bytes × Bytes))
  | [] => .ok []
  | f :: rest => do
    let e ← parseSecretField f
    let es ← parseFields rest
    .ok (e :: es)

/-- Process one CSV row of `Secrets.load`: skip rows with fewer than two
fields; reject a node already present; parse every `timestamp:secret`
field; sort the pairs (Python's stable `list.sort`, i.e. tuple comparison)
and bind them to the node. -/
def Secrets.loadRow (s : Secrets) (row : List Bytes) :
    Except LoadError Secrets :=
  match row with
  | [] => .ok s
  | node :: fields =>
    if fields.isEmpty then .ok s
    else if (assocFind node s.secrets).isSome then .error .duplicateNode
    else do
      let parsed ← parseFields fields
      .ok ⟨s.secrets ++ [(node, List.insertionSort pairLeP parsed)]⟩

/-- `Secrets.load`: process the rows of the loaded file(s) in order,
committing each row as it is parsed.  On the first failing row the
exception propagates, but the rows committed so far remain in the store:
the result is the store as mutated so far, plus the error if any. -/
def Secrets.load (s : Secrets) : List (List Bytes) → Secrets × Option LoadError
  | [] => (s, none)
  | row :: rest =>
    match s.loadRow row with
    | .ok s' => s'.load rest
    | .error e => (s, some e)

/-- `Secrets.save`: one CSV row per node, in dict insertion order; each
`(timestamp, secret)` pair becomes the field `timestamp:secret`. -/
def Secrets.save (s : Secrets) : List (List Bytes) :=
  s.secrets.map (fun p => p.1 :: p.2.map (fun e => e.1 ++ colonByte :: e.2))

/-- `Secrets.add(node, size)`: the current time `now` (integer seconds) and
the `os.urandom(size)` output `rand` are explicit inputs.  The stored secret
is `binascii.b2a_hex(rand)[:size]`; the rotation-rate check compares the
decimal timestamp byte string of `now` with the node's last stored
timestamp using Python byte-string (lexicographic) `<=`, raising an
assertion error when it is not strictly greater.  An absent or empty list
raises `IndexError`, which is swallowed, so the first add succeeds. -/
def Secrets.add (s : Secrets) (node : Bytes) (size : Nat) (now : Nat)
    (rand : Bytes) : Except String Secrets :=
  let timestamp := natDigits now
  let secret := (b2aHex rand).take size
  let (cur, s1) := s.dread node
  match cur.getLast? with
  | some last =>
      if bytesLeB timestamp last.1 then
        .error "You can only add one secret per second"
      else .ok ⟨assocSet node (cur ++ [(timestamp, secret)]) s1.secrets⟩
  | none => .ok ⟨assocSet node (cur ++ [(timestamp, secret)]) s1.secrets⟩

/-- One `Secrets.add` call with its explicit time and randomness inputs. -/
structure AddOp where
  node : Bytes
  size : Nat
  now : Nat
  rand : Bytes
  deriving DecidableEq, Repr

/-- Apply a sequence of `add` calls, all of which must succeed. -/
def applyAdds (s : Secrets) : List AddOp → Option Secrets
  | [] => some s
  | op :: rest =>
    match s.add op.node op.size op.now op.rand with
    | .ok s' => applyAdds s' rest
    | .error _ => none

/-! ## The `FixedSecrets` class

`FixedSecrets.get` returns `list(self._secrets)` — a fresh list object per
call.  To express that mutating a returned list does not change later `get`
results, list objects live in an explicit heap (`ListHeap`), a `FixedSecrets`
instance holds a reference into it, and `get` allocates a copy. -/

/-- A heap of Python list objects holding byte strings, indexed by
allocation order. -/
structure ListHeap where
  cells : List (List Bytes)
  deriving DecidableEq, Repr

/-- A reference to a list object in a `ListHeap`. -/
abbrev ListRef := Nat

/-- Read a list object from the heap. -/
def ListHeap.read (h : ListHeap) (r : ListRef) : List Bytes :=
  h.cells.getD r []

/-- Allocate a new list object, returning its reference. -/
def ListHeap.alloc (h : ListHeap) (v : List Bytes) : ListRef × ListHeap :=
  (h.cells.length, ⟨h.cells ++ [v]⟩)

/-- Mutate a list object in place (e.g. `lst.append(x)`, `lst[i] = x`, ...,
abstracted as replacing its contents). -/
def ListHeap.write (h : ListHeap) (r : ListRef) (v : List Bytes) : ListHeap :=
  ⟨h.cells.set r v⟩

/-- Python whitespace bytes, as recognised by `str.split()`. -/
def isSpaceByte (b : Nat) : Bool :=
  b = 32 || b = 9 || b = 10 || b = 13 || b = 11 || b = 12

/-- Python `s.split()` (no argument): split on runs of whitespace,
discarding empty pieces. -/
def splitWs (bs : Bytes) : List Bytes :=
  (bs.splitOnP (fun b => isSpaceByte b)).filter (fun p => !p.isEmpty)

/-- A `FixedSecrets` instance: `self._secrets` is a reference to the
configured list object. -/
structure FixedSecrets where
  ref : ListRef
  deriving DecidableEq, Repr

/-- `FixedSecrets(secrets)` with a list argument: the instance stores a
reference to the caller's list object itself. -/
def FixedSecrets.ofList (r : ListRef) : FixedSecrets := ⟨r⟩

/-- `FixedSecrets(secrets)` with a string argument: `secrets.split()`
allocates a fresh list, which the instance stores. -/
def FixedSecrets.ofString (h : ListHeap) (s : Bytes) :
    FixedSecrets × ListHeap :=
  let (r, h') := h.alloc (splitWs s)
  (⟨r⟩, h')

/-- `FixedSecrets.get(node)`: ignores `node`; allocates and returns
`list(self._secrets)`, a fresh copy of the configured list. -/
def FixedSecrets.get (fs : FixedSecrets) (h : ListHeap) (_node : Bytes) :
    ListRef × ListHeap :=
  h.alloc (h.read fs.ref)

/-- `FixedSecrets.keys()`: always the empty list. -/
def FixedSecrets.keys (_fs : FixedSecrets) : List Bytes := []

/-! ## SHA-256, HMAC and HKDF

`DerivedSecrets.get` calls `tokenlib.utils.HKDF`, which is not part of this
repository.  Modelled from the spec: an HKDF extract-and-expand construction
(RFC 5869) over HMAC-SHA-256 — "no salt" means a zero salt of one digest
length, the expand step concatenates `HMAC(PRK, T(i-1) || info || byte(i))`
blocks and truncates to `size` bytes.  SHA-256 and HMAC are implemented
concretely; 32-bit words are `Nat`s reduced `% 2^32` where overflow
matters. -/

/-- 2^32, the word modulus of SHA-256. -/
def word32 : Nat := 4294967296

/-- 32-bit addition. -/
def add32 (a b : Nat) : Nat := (a + b) % word32

/-- 32-bit right rotation. -/
def rotr32 (n x : Nat) : Nat :=
  ((x >>> n) ||| (x <<< (32 - n))) % word32

/-- 32-bit complement. -/
def not32 (x : Nat) : Nat := 4294967295 - x % word32

/-- The eight 32-bit working variables of SHA-256. -/
structure Hash8 where
  a : Nat
  b : Nat
  c : Nat
  d : Nat
  e : Nat
  f : Nat
  g : Nat
  h : Nat
  deriving DecidableEq, Repr

/-- The SHA-256 initial hash value. -/
def sha256Init : Hash8 :=
  ⟨1779033703, 3144134277, 1013904242, 2773480762,
   1359893119, 2600822924, 528734635, 1541459225⟩

/-- The SHA-256 round constants. -/
def sha256K : List Nat :=
  [1116352408, 1899447441, 3049323471, 3921009573, 961987163,
   1508970993, 2453635748, 2870763221, 3624381080, 310598401,
   607225278, 1426881987, 1925078388, 2162078206, 2614888103,
   3248222580, 3835390401, 4022224774, 264347078, 604807628,
   770255983, 1249150122, 1555081692, 1996064986, 2554220882,
   2821834349, 2952996808, 3210313671, 3336571891, 3584528711,
   113926993, 338241895, 666307205, 773529912, 1294757372,
   1396182291, 1695183700, 1986661051, 2177026350, 2456956037,
   2730485921, 2820302411, 3259730800, 3345764771, 3516065817,
   3600352804, 4094571909, 275423344, 430227734, 506948616,
   659060556, 883997877, 958139571, 1322822218, 1537002063,
   1747873779, 1955562222, 2024104815, 2227730452, 2361852424,
   2428436474, 2756734187, 3204031479, 3329325298]

/-- SHA-256 small sigma 0. -/
def ssig0 (x : Nat) : Nat := rotr32 7 x ^^^ rotr32 18 x ^^^ (x >>> 3)

/-- SHA-256 small sigma 1. -/
def ssig1 (x : Nat) : Nat := rotr32 17 x ^^^ rotr32 19 x ^^^ (x >>> 10)

/-- SHA-256 big sigma 0. -/
def bsig0 (x : Nat) : Nat := rotr32 2 x ^^^ rotr32 13 x ^^^ rotr32 22 x

/-- SHA-256 big sigma 1. -/
def bsig1 (x : Nat) : Nat := rotr32 6 x ^^^ rotr32 11 x ^^^ rotr32 25 x

/-- Extend a 16-word block by one message-schedule word. -/
def scheduleStep (ws : List Nat) : List Nat :=
  ws ++ [add32 (add32 (ssig1 (ws.getD (ws.length - 2) 0))
                      (ws.getD (ws.length - 7) 0))
               (add32 (ssig0 (ws.getD (ws.length - 15) 0))
                      (ws.getD (ws.length - 16) 0))]

/-- Extend a 16-word block to the 64-word message schedule. -/
def schedule : Nat → List Nat → List Nat
  | 0, ws => ws
  | n + 1, ws => schedule n (scheduleStep ws)

/-- One SHA-256 compression round, consuming `k + w` (round constant plus
schedule word, already added mod 2^32). -/
def sha256Round (st : Hash8) (kw : Nat) : Hash8 :=
  let ch := (st.e &&& st.f) ^^^ (not32 st.e &&& st.g)
  let maj := (st.a &&& st.b) ^^^ (st.a &&& st.c) ^^^ (st.b &&& st.c)
  let t1 := add32 (add32 (add32 st.h (bsig1 st.e)) ch) kw
  let t2 := add32 (bsig0 st.a) maj
  ⟨add32 t1 t2, st.a, st.b, st.c, add32 st.d t1, st.e, st.f, st.g⟩

/-- Compress one 16-word block into the running hash value. -/
def sha256Block (st : Hash8) (block : List Nat) : Hash8 :=
  let w := schedule 48 block
  let t := (List.zipWith add32 sha256K w).foldl sha256Round st
  ⟨add32 st.a t.a, add32 st.b t.b, add32 st.c t.c, add32 st.d t.d,
   add32 st.e t.e, add32 st.f t.f, add32 st.g t.g, add32 st.h t.h⟩

/-- Big-endian 32-bit word from (up to) four bytes. -/
def wordOfBytes (bs : Bytes) : Nat :=
  bs.foldl (fun acc b => acc * 256 + b % 256) 0

/-- Group a byte string into big-endian 32-bit words (length a multiple of
four after padding). -/
def toWords : Bytes → List Nat
  | b0 :: b1 :: b2 :: b3 :: rest => wordOfBytes [b0, b1, b2, b3] :: toWords rest
  | [] => []
  | l => [wordOfBytes l]

/-- Group a padded byte string into 64-byte blocks of 16 words each. -/
def toBlocks (bs : Bytes) : List (List Nat) :=
  go (bs.length) bs
where
  /-- Fuel-driven chunking into 64-byte pieces. -/
  go : Nat → Bytes → List (List Nat)
    | _, [] => []
    | 0, l => [toWords l]
    | fuel + 1, l => toWords (l.take 64) :: go fuel (l.drop 64)

/-- The big-endian 8-byte encoding of a length in bits. -/
def be64 (n : Nat) : Bytes :=
  [n >>> 56 % 256, n >>> 48 % 256, n >>> 40 % 256, n >>> 32 % 256,
   n >>> 24 % 256, n >>> 16 % 256, n >>> 8 % 256, n % 256]

/-- SHA-256 padding: append `0x80`, zero bytes to 56 mod 64, then the
64-bit big-endian bit length. -/
def sha256Pad (msg : Bytes) : Bytes :=
  msg ++ 128 :: List.replicate ((64 - (msg.length + 9) % 64) % 64) 0
      ++ be64 (8 * msg.length)

/-- The big-endian 4-byte encoding of a 32-bit word. -/
def be32 (w : Nat) : Bytes :=
  [w >>> 24 % 256, w >>> 16 % 256, w >>> 8 % 256, w % 256]

/-- SHA-256 of a byte string: a 32-byte digest. -/
def sha256 (msg : Bytes) : Bytes :=
  let st := (toBlocks (sha256Pad msg)).foldl sha256Block sha256Init
  be32 st.a ++ be32 st.b ++ be32 st.c ++ be32 st.d ++
  be32 st.e ++ be32 st.f ++ be32 st.g ++ be32 st.h

/-- HMAC-SHA-256 (`hmac.new(key, msg, hashlib.sha256).digest()`): hash long
keys, zero-pad to the 64-byte block size, inner hash over `ipad`, outer
over `opad`. -/
def hmacSha256 (key msg : Bytes) : Bytes :=
  let k0 := if 64 < key.length then sha256 key else key
  let k := k0 ++ List.replicate (64 - k0.length) 0
  let ipad := k.map (fun b => b ^^^ 54)
  let opad := k.map (fun b => b ^^^ 92)
  sha256 (opad ++ sha256 (ipad ++ msg))

/-- Modelled from the spec: the expand loop of `tokenlib.utils.HKDF`
(RFC 5869), absent from this repository.  Block `T(i) =
HMAC(PRK, T(i-1) || info || byte(i))`; the blocks are concatenated. -/
def hkdfExpandGo (prk info : Bytes) : Nat → Nat → Bytes → Bytes → Bytes
  | 0, _, _, acc => acc
  | n + 1, i, t, acc =>
    let t' := hmacSha256 prk (t ++ info ++ [i % 256])
    hkdfExpandGo prk info n (i + 1) t' (acc ++ t')

/-- Modelled from the spec: `tokenlib.utils.HKDF_expand`, absent from this
repository — `ceil(size/32)` blocks, truncated to `size` bytes. -/
def hkdfExpand (prk info : Bytes) (size : Nat) : Bytes :=
  (hkdfExpandGo prk info ((size + 31) / 32) 1 [] []).take size

/-- Modelled from the spec: `tokenlib.utils.HKDF` with a `None` salt, absent
from this repository — extract `PRK = HMAC(zero-salt, secret)` then
expand to `size` bytes. -/
def HKDF (secret : Bytes) (size : Nat) (info : Bytes) : Bytes :=
  hkdfExpand (hmacSha256 (List.replicate 32 0) secret) info size

/-! ## The `DerivedSecrets` class -/

/-- The namespace prefix for the HKDF `info` parameter
(`DerivedSecrets.HKDF_INFO_NODE_SECRET`). -/
def hkdfInfoNodeSecret : Bytes :=
  strBytes "services.mozilla.com/mozsvc/v1/node_secret/"

/-- A `DerivedSecrets` instance: the list of master secrets (byte
strings). -/
structure DerivedSecrets where
  masterSecrets : List Bytes
  deriving DecidableEq, Repr

/-- `DerivedSecrets.get(node)`: for each master secret, HKDF-derive
`int(len(master)/2)` bytes with info = namespace || node, and hex-encode
the result.  A pure function of the master secrets and the node. -/
def DerivedSecrets.get (ds : DerivedSecrets) (node : Bytes) : List Bytes :=
  let info := hkdfInfoNodeSecret ++ node
  ds.masterSecrets.map (fun m => b2aHex (HKDF m (m.length / 2) info))

/-- `DerivedSecrets.keys()`: always the empty list. -/
def DerivedSecrets.keys (_ds : DerivedSecrets) : List Bytes := []

/-! ## Claim-side predicates -/

/-- The specified ordering of a stored node list: ascending by the numeric
(decimal integer Unix seconds) value of the timestamps. -/
def tsNumAscending (l : List (Bytes × Bytes)) : Prop :=
  l.Pairwise (fun a b => decimalVal a.1 ≤ decimalVal b.1)

instance (l : List (Bytes × Bytes)) : Decidable (tsNumAscending l) := by
  unfold tsNumAscending; infer_instance

/-- The claimed error condition of `load` for one row against the current
store: the row has at least two fields and either its node already appears
in the store or some secret field does not split into exactly two parts on
the colon. -/
def rowBad (s : Secrets) (row : List Bytes) : Prop :=
  match row with
  | [] => False
  | node :: fields =>
    fields ≠ [] ∧
      ((assocFind node s.secrets).isSome = true ∨
        ∃ f ∈ fields, (splitByte colonByte f).length ≠ 2)

/-- A stored `(timestamp, secret)` pair is colon-free, so its
`timestamp:secret` field parses back into exactly two parts. -/
def entryOk (e : Bytes × Bytes) : Prop :=
  colonByte ∉ e.1 ∧ colonByte ∉ e.2

/-- A node's stored list as produced by `add`: nonempty, colon-free, and
strictly ascending in the lexicographic byte-string order of the
timestamps. -/
def nodeListOk (l : List (Bytes × Bytes)) : Prop :=
  l ≠ [] ∧ (∀ e ∈ l, entryOk e) ∧
    l.Pairwise (fun a b => bytesLtB a.1 b.1 = true)

/-- The invariant of a store populated by successful `add` calls: node
names are distinct and every node's list satisfies `nodeListOk`. -/
def SecretsInv (s : Secrets) : Prop :=
  (s.secrets.map Prod.fst).Nodup ∧ ∀ p ∈ s.secrets, nodeListOk p.2

/-- `decimalVal` after folding in a leading value (reading digits appended
after a known prefix value). -/
def decimalValFrom (v : Nat) (l : Bytes) : Nat :=
  l.foldl (fun acc d => acc * 10 + (d - 48)) v

/-- A concrete trace of `add` calls: two for node `p` (at seconds 5 and 6)
and one for node `q` (at second 5). -/
def c1Ops : List AddOp :=
  [⟨[112], 2, 5, [171, 205]⟩, ⟨[112], 2, 6, [1, 2]⟩, ⟨[113], 1, 5, [7]⟩]

/-- The store produced by `c1Ops`. -/
def c1Store : Secrets :=
  ⟨[([112], [([53], [97, 98]), ([54], [48, 49])]), ([113], [([53], [48])])]⟩

/-- A single CSV row `n,9:a,10:b`, whose timestamps `9` and `10` sort
lexicographically as byte strings (`"10" < "9"`), not numerically. -/
def c2Rows : List (List Bytes) :=
  [[[110], [57, colonByte, 97], [49, 48, colonByte, 98]]]

/-! ## Order lemmas for the lexicographic byte-string comparison -/

theorem bytesLeB_refl (a : Bytes) : bytesLeB a a = true := by
  induction a with
  | nil => rfl
  | cons x xs ih => simp [bytesLeB, ih]

theorem bytesLeB_total (a b : Bytes) :
    bytesLeB a b = true ∨ bytesLeB b a = true := by
  induction a generalizing b with
  | nil => left; rfl
  | cons x xs ih =>
    cases b with
    | nil => right; rfl
    | cons y ys =>
      by_cases hxy : x < y
      · left; simp [bytesLeB, hxy]
      · by_cases hyx : y < x
        · right; simp [bytesLeB, hyx]
        · have hxe : x = y := Nat.le_antisymm (Nat.not_lt.mp hyx) (Nat.not_lt.mp hxy)
          subst hxe
          rcases ih ys with h | h
          · left; simp [bytesLeB, h]
          · right; simp [bytesLeB, h]

theorem bytesLeB_trans {a b c : Bytes} (hab : bytesLeB a b = true)
    (hbc : bytesLeB b c = true) : bytesLeB a c = true := by
  induction a generalizing b c with
  | nil => rfl
  | cons x xs ih =>
    cases b with
    | nil => simp [bytesLeB] at hab
    | cons y ys =>
      cases c with
      | nil => simp [bytesLeB] at hbc
      | cons z zs =>
        simp only [bytesLeB] at hab hbc ⊢
        by_cases hxy : x < y
        · by_cases hyz : y < z
          · simp [Nat.lt_trans hxy hyz]
          · by_cases hzy : z < y
            · rw [if_neg hyz, if_pos hzy] at hbc
              simp at hbc
            · have : y = z := Nat.le_antisymm (Nat.not_lt.mp hzy) (Nat.not_lt.mp hyz)
              subst this
              simp [hxy]
        · by_cases hyx : y < x
          · rw [if_neg hxy, if_pos hyx] at hab
            simp at hab
          · have : x = y := Nat.le_antisymm (Nat.not_lt.mp hyx) (Nat.not_lt.mp hxy)
            subst this
            rw [if_neg hxy, if_neg hxy] at hab
            by_cases hyz : x < z
            · simp [hyz]
            · by_cases hzy : z < x
              · rw [if_neg hyz, if_pos hzy] at hbc
                simp at hbc
              · have : x = z := Nat.le_antisymm (Nat.not_lt.mp hzy) (Nat.not_lt.mp hyz)
                subst this
                rw [if_neg hyz, if_neg hyz] at hbc ⊢
                exact ih hab hbc

theorem bytesLeB_antisymm {a b : Bytes} (hab : bytesLeB a b = true)
    (hba : bytesLeB b a = true) : a = b := by
  induction a generalizing b with
  | nil =>
    cases b with
    | nil => rfl
    | cons y ys => simp [bytesLeB] at hba
  | cons x xs ih =>
    cases b with
    | nil => simp [bytesLeB] at hab
    | cons y ys =>
      simp only [bytesLeB] at hab hba
      by_cases hxy : x < y
      · rw [if_neg (Nat.lt_asymm hxy), if_pos hxy] at hba
        simp at hba
      · by_cases hyx : y < x
        · rw [if_neg hxy, if_pos hyx] at hab
          simp at hab
        · have : x = y := Nat.le_antisymm (Nat.not_lt.mp hyx) (Nat.not_lt.mp hxy)
          subst this
          rw [if_neg hxy, if_neg hxy] at hab hba
          rw [ih hab hba]

theorem bytesLtB_not_leB {a b : Bytes} :
    bytesLtB a b = true ↔ ¬ bytesLeB b a = true := by
  simp [bytesLtB]

theorem bytesLtB_leB {a b : Bytes} (h : bytesLtB a b = true) :
    bytesLeB a b = true := by
  rw [bytesLtB_not_leB] at h
  rcases bytesLeB_total a b with h' | h'
  · exact h'
  · exact absurd h' h

theorem bytesLtB_asymm {a b : Bytes} (hab : bytesLtB a b = true)
    (hba : bytesLtB b a = true) : False := by
  rw [bytesLtB_not_leB] at hab
  exact hab (bytesLtB_leB hba)

theorem bytesLtB_ne {a b : Bytes} (h : bytesLtB a b = true) : a ≠ b := by
  intro he
  subst he
  exact (bytesLtB_not_leB.mp h) (bytesLeB_refl a)

theorem bytesLtB_trans {a b c : Bytes} (hab : bytesLtB a b = true)
    (hbc : bytesLtB b c = true) : bytesLtB a c = true := by
  rw [bytesLtB_not_leB] at hab hbc ⊢
  intro hca
  exact hbc (bytesLeB_trans hca (bytesLtB_leB (bytesLtB_not_leB.mpr hab)))

instance : IsTotal (Bytes × Bytes) pairLeP := by
  constructor
  intro a b
  unfold pairLeP pairLeB
  by_cases h : a.1 = b.1
  · simp only [h, if_pos rfl, if_pos h]
    exact bytesLeB_total a.2 b.2
  · rw [if_neg h, if_neg (Ne.symm h)]
    rw [bytesLtB_not_leB, bytesLtB_not_leB]
    rcases bytesLeB_total a.1 b.1 with h' | h'
    · by_cases hba : bytesLeB b.1 a.1 = true
      · exact absurd (bytesLeB_antisymm h' hba) h
      · left; exact hba
    · by_cases hab : bytesLeB a.1 b.1 = true
      · exact absurd (bytesLeB_antisymm hab h') h
      · right; exact hab

instance : IsTrans (Bytes × Bytes) pairLeP := by
  constructor
  intro a b c hab hbc
  unfold pairLeP pairLeB at hab hbc ⊢
  by_cases h1 : a.1 = b.1
  · by_cases h2 : b.1 = c.1
    · rw [if_pos h1] at hab
      rw [if_pos h2] at hbc
      rw [if_pos (h1.trans h2)]
      exact bytesLeB_trans hab hbc
    · rw [if_neg h2] at hbc
      rw [if_neg (fun h => h2 (h1.symm.trans h)), h1]
      exact hbc
  · by_cases h2 : b.1 = c.1
    · rw [if_neg h1] at hab
      rw [if_neg (fun h => h1 (h.trans h2.symm)), ← h2]
      exact hab
    · rw [if_neg h1] at hab
      rw [if_neg h2] at hbc
      have hac := bytesLtB_trans hab hbc
      rw [if_neg (bytesLtB_ne hac)]
      exact hac

/-! ## Lemmas about splitting, digits and hex encoding -/

theorem splitByte_no_sep {c : Nat} {l : Bytes} (h : c ∉ l) :
    splitByte c l = [l] := by
  induction l with
  | nil => rfl
  | cons x xs ih =>
    have hx : x ≠ c := fun he => h (he ▸ List.mem_cons_self x xs)
    have hxs : c ∉ xs := fun hm => h (List.mem_cons_of_mem x hm)
    simp [splitByte, ih hxs, hx]

theorem splitByte_append {c : Nat} {t s : Bytes} (ht : c ∉ t) (hs : c ∉ s) :
    splitByte c (t ++ c :: s) = [t, s] := by
  induction t with
  | nil => simp [splitByte, splitByte_no_sep hs]
  | cons x xs ih =>
    have hx : x ≠ c := fun he => ht (he ▸ List.mem_cons_self x xs)
    have hxs : c ∉ xs := fun hm => ht (List.mem_cons_of_mem x hm)
    simp only [List.cons_append, splitByte, List.append_eq]
    rw [ih hxs]
    simp [hx]

theorem digitByte_range (n : Nat) : 48 ≤ digitByte n ∧ digitByte n ≤ 57 := by
  unfold digitByte
  omega

theorem natDigitsAux_digits (fuel n : Nat) (acc : Bytes)
    (hacc : ∀ b ∈ acc, 48 ≤ b ∧ b ≤ 57) :
    ∀ b ∈ natDigitsAux fuel n acc, 48 ≤ b ∧ b ≤ 57 := by
  induction fuel generalizing n acc with
  | zero => exact hacc
  | succ fuel ih =>
    unfold natDigitsAux
    by_cases h : n < 10
    · rw [if_pos h]
      intro b hb
      rcases List.mem_cons.mp hb with he | hm
      · exact he ▸ digitByte_range n
      · exact hacc b hm
    · rw [if_neg h]
      refine ih (n / 10) _ ?_
      intro b hb
      rcases List.mem_cons.mp hb with he | hm
      · exact he ▸ digitByte_range (n % 10)
      · exact hacc b hm

theorem natDigits_digits (n : Nat) : ∀ b ∈ natDigits n, 48 ≤ b ∧ b ≤ 57 :=
  natDigitsAux_digits (n + 1) n [] (by intro b hb; cases hb)

theorem natDigits_no_colon (n : Nat) : colonByte ∉ natDigits n := by
  intro h
  have := natDigits_digits n colonByte h
  unfold colonByte at this
  omega

theorem hexDigitByte_hex (n : Nat) : isHexDigitByte (hexDigitByte n) = true := by
  unfold isHexDigitByte hexDigitByte
  have := Nat.mod_lt n (show 0 < 16 by omega)
  by_cases h : n % 16 < 10 <;> simp [h] <;> omega

theorem b2aHex_hex {l : Bytes} : ∀ b ∈ b2aHex l, isHexDigitByte b = true := by
  intro b hb
  unfold b2aHex at hb
  rcases List.mem_flatMap.mp hb with ⟨x, _, hbx⟩
  rcases List.mem_cons.mp hbx with he | hbx'
  · exact he ▸ hexDigitByte_hex (x / 16)
  · rcases List.mem_cons.mp hbx' with he | hn
    · exact he ▸ hexDigitByte_hex x
    · cases hn

theorem hexByte_no_colon {b : Nat} (h : isHexDigitByte b = true) :
    b ≠ colonByte := by
  unfold isHexDigitByte at h
  unfold colonByte
  simp only [Bool.or_eq_true, Bool.and_eq_true, decide_eq_true_eq] at h
  omega

theorem b2aHex_length (l : Bytes) : (b2aHex l).length = 2 * l.length := by
  induction l with
  | nil => rfl
  | cons x xs ih =>
    simp only [b2aHex, List.flatMap_cons] at ih ⊢
    simp [ih]
    omega

/-! ## Association-list lemmas -/

theorem assocFind_none_iff {node : Bytes}
    {l : List (Bytes × List (Bytes × Bytes))} :
    assocFind node l = none ↔ node ∉ l.map Prod.fst := by
  induction l with
  | nil => simp [assocFind]
  | cons p rest ih =>
    obtain ⟨k, v⟩ := p
    by_cases h : k = node
    · subst h
      simp [assocFind]
    · simp [assocFind, h, ih, Ne.symm h]

theorem assocFind_some_mem {node : Bytes}
    {l : List (Bytes × List (Bytes × Bytes))} {v : List (Bytes × Bytes)}
    (h : assocFind node l = some v) : (node, v) ∈ l := by
  induction l with
  | nil => simp [assocFind] at h
  | cons p rest ih =>
    obtain ⟨k, w⟩ := p
    by_cases hk : k = node
    · subst hk
      simp [assocFind] at h
      simp [h]
    · simp [assocFind, hk] at h
      exact List.mem_cons_of_mem _ (ih h)

theorem assocSet_keys (node : Bytes) (v : List (Bytes × Bytes)) :
    ∀ l : List (Bytes × List (Bytes × Bytes)),
      (assocSet node v l).map Prod.fst = l.map Prod.fst
  | [] => rfl
  | (k, w) :: rest => by
    by_cases h : k = node
    · simp [assocSet, h]
    · simp [assocSet, h, assocSet_keys node v rest]

theorem assocSet_mem {node : Bytes} {v : List (Bytes × Bytes)}
    {l : List (Bytes × List (Bytes × Bytes))} {p} (hp : p ∈ assocSet node v l) :
    p ∈ l ∨ p.2 = v := by
  induction l with
  | nil => simp [assocSet] at hp
  | cons q rest ih =>
    obtain ⟨k, w⟩ := q
    by_cases h : k = node
    · simp only [assocSet, if_pos h] at hp
      rcases List.mem_cons.mp hp with he | hm
      · right; rw [he]
      · left; exact List.mem_cons_of_mem _ hm
    · simp only [assocSet, if_neg h] at hp
      rcases List.mem_cons.mp hp with he | hm
      · left; exact he ▸ List.mem_cons_self _ _
      · rcases ih hm with h' | h'
        · left; exact List.mem_cons_of_mem _ h'
        · right; exact h'

theorem assocSet_append_fresh {node : Bytes} {v w : List (Bytes × Bytes)}
    {l : List (Bytes × List (Bytes × Bytes))} (h : node ∉ l.map Prod.fst) :
    assocSet node v (l ++ [(node, w)]) = l ++ [(node, v)] := by
  induction l with
  | nil => simp [assocSet]
  | cons p rest ih =>
    obtain ⟨k, u⟩ := p
    have hk : k ≠ node := by
      intro he
      exact h (by simp [he])
    have hr : node ∉ rest.map Prod.fst := by
      intro hm
      exact h (by simp [hm])
    simp [assocSet, hk, ih hr]

theorem assocSet_find_some {node : Bytes} {v w : List (Bytes × Bytes)}
    {l : List (Bytes × List (Bytes × Bytes))} (h : assocFind node l = some w) :
    assocSet node v l = l.takeWhile (fun p => p.1 ≠ node) ++
      (node, v) :: (l.dropWhile (fun p => p.1 ≠ node)).tail := by
  induction l with
  | nil => simp [assocFind] at h
  | cons p rest ih =>
    obtain ⟨k, u⟩ := p
    by_cases hk : k = node
    · subst hk
      simp [assocSet, List.takeWhile, List.dropWhile]
    · simp only [assocFind, if_neg hk] at h
      simp [assocSet, hk, List.takeWhile, List.dropWhile, ih h]

/-! ## The store invariant established by `add` -/

theorem secretsInv_empty : SecretsInv emptySecrets := by
  constructor
  · simp [emptySecrets]
  · intro p hp
    simp [emptySecrets] at hp

/-- The entry appended by a successful `add` is colon-free. -/
theorem add_entryOk (now : Nat) (size : Nat) (rand : Bytes) :
    entryOk (natDigits now, (b2aHex rand).take size) := by
  constructor
  · exact natDigits_no_colon now
  · intro hm
    exact hexByte_no_colon (b2aHex_hex colonByte (List.mem_of_mem_take hm)) rfl

/-- In a `Pairwise` list, every element is the last one or relates to it. -/
theorem pairwise_rel_getLast {α : Type _} {r : α → α → Prop} {l : List α}
    {x : α} (hp : l.Pairwise r) (hl : l.getLast? = some x) :
    ∀ e ∈ l, e = x ∨ r e x := by
  rcases List.getLast?_eq_some_iff.mp hl with ⟨ys, rfl⟩
  rw [List.pairwise_append] at hp
  intro e he
  rcases List.mem_append.mp he with hm | hm
  · right
    exact hp.2.2 e hm x (List.mem_singleton_self x)
  · left
    exact List.mem_singleton.mp hm

/-- A successful `add` preserves the store invariant. -/
theorem add_inv {s s' : Secrets} {node : Bytes} {size now : Nat}
    {rand : Bytes} (h : s.add node size now rand = .ok s')
    (hinv : SecretsInv s) : SecretsInv s' := by
  obtain ⟨hnodup, hok⟩ := hinv
  unfold Secrets.add Secrets.dread at h
  cases hfind : assocFind node s.secrets with
  | some l =>
    rw [hfind] at h
    simp only at h
    have hl : nodeListOk l := hok _ (assocFind_some_mem hfind)
    cases hlast : l.getLast? with
    | some last =>
      rw [hlast] at h
      dsimp only at h
      by_cases hle : bytesLeB (natDigits now) last.1 = true
      · rw [if_pos hle] at h
        cases h
      · rw [if_neg hle] at h
        injection h with h
        subst h
        constructor
        · rw [assocSet_keys]
          exact hnodup
        · intro p hp
          rcases assocSet_mem hp with hm | hm
          · exact hok p hm
          · rw [hm]
            obtain ⟨hne, hec, hpw⟩ := hl
            refine ⟨by simp, ?_, ?_⟩
            · intro e he
              rcases List.mem_append.mp he with h' | h'
              · exact hec e h'
              · rw [List.mem_singleton.mp h']
                exact add_entryOk now size rand
            · rw [List.pairwise_append]
              refine ⟨hpw, List.pairwise_singleton _ _, ?_⟩
              intro a ha b hb
              rw [List.mem_singleton.mp hb]
              have hlt : bytesLtB last.1 (natDigits now) = true :=
                bytesLtB_not_leB.mpr hle
              rcases pairwise_rel_getLast hpw hlast a ha with he | hr
              · rw [he]
                exact hlt
              · exact bytesLtB_trans hr hlt
    | none =>
      rw [hlast] at h
      dsimp only at h
      injection h with h
      subst h
      rcases List.getLast?_eq_none_iff.mp hlast with rfl
      exact absurd rfl (hok _ (assocFind_some_mem hfind)).1
  | none =>
    rw [hfind] at h
    simp only [List.getLast?_nil] at h
    injection h with h
    subst h
    have hfresh : node ∉ s.secrets.map Prod.fst := assocFind_none_iff.mp hfind
    rw [assocSet_append_fresh hfresh]
    constructor
    · simp only [List.map_append, List.map_cons, List.map_nil]
      rw [List.nodup_append]
      refine ⟨hnodup, List.nodup_singleton _, ?_⟩
      intro a ha hb
      rw [List.mem_singleton] at hb
      exact hfresh (hb ▸ ha)
    · intro p hp
      rcases List.mem_append.mp hp with hm | hm
      · exact hok p hm
      · rw [List.mem_singleton.mp hm]
        refine ⟨by simp, ?_, List.pairwise_singleton _ _⟩
        intro e he
        rw [List.mem_singleton.mp he]
        exact add_entryOk now size rand

/-- A successful sequence of `add` calls preserves the store invariant. -/
theorem applyAdds_inv : ∀ {ops : List AddOp} {s s' : Secrets},
    applyAdds s ops = some s' → SecretsInv s → SecretsInv s'
  | [], s, s', h, hinv => by
    injection h with h
    exact h ▸ hinv
  | op :: rest, s, s', h, hinv => by
    unfold applyAdds at h
    cases hadd : s.add op.node op.size op.now op.rand with
    | ok s1 =>
      rw [hadd] at h
      exact applyAdds_inv h (add_inv hadd hinv)
    | error e =>
      rw [hadd] at h
      cases h

/-! ## The save/load round trip -/

theorem parseSecretField_encode {e : Bytes × Bytes} (h : entryOk e) :
    parseSecretField (e.1 ++ colonByte :: e.2) = .ok e := by
  unfold parseSecretField
  rw [splitByte_append h.1 h.2]

theorem parseFields_encode {l : List (Bytes × Bytes)}
    (h : ∀ e ∈ l, entryOk e) :
    parseFields (l.map (fun e => e.1 ++ colonByte :: e.2)) = .ok l := by
  induction l with
  | nil => rfl
  | cons e rest ih =>
    simp only [List.map_cons, parseFields]
    rw [parseSecretField_encode (h e (List.mem_cons_self e rest)),
      ih (fun x hx => h x (List.mem_cons_of_mem e hx))]
    rfl

theorem sorted_pairLe_of_tsLt {l : List (Bytes × Bytes)}
    (h : l.Pairwise (fun a b => bytesLtB a.1 b.1 = true)) :
    List.Sorted pairLeP l := by
  refine List.Pairwise.imp ?_ h
  intro a b hab
  have hne : a.1 ≠ b.1 := bytesLtB_ne hab
  unfold pairLeP pairLeB
  rw [if_neg hne]
  exact hab

theorem load_save_aux :
    ∀ (l t : List (Bytes × List (Bytes × Bytes))),
      ((t ++ l).map Prod.fst).Nodup →
      (∀ p ∈ l, nodeListOk p.2) →
      Secrets.load ⟨t⟩ (Secrets.save ⟨l⟩) = (⟨t ++ l⟩, none)
  | [], t, _, _ => by simp [Secrets.save, Secrets.load]
  | (node, entries) :: rest, t, hnodup, hok => by
    have hent : nodeListOk entries := hok _ (List.mem_cons_self _ _)
    have hrowne :
        ¬((entries.map (fun e => e.1 ++ colonByte :: e.2)).isEmpty = true) := by
      cases hc : entries with
      | nil => exact absurd hc hent.1
      | cons e es => simp
    have hfresh : assocFind node t = none := by
      rw [assocFind_none_iff]
      intro hmem
      rw [List.map_append] at hnodup
      rcases List.nodup_append.mp hnodup with ⟨_, _, hdisj⟩
      exact hdisj hmem (by simp)
    have hrow : Secrets.loadRow ⟨t⟩
        (node :: entries.map (fun e => e.1 ++ colonByte :: e.2)) =
        .ok ⟨t ++ [(node, entries)]⟩ := by
      unfold Secrets.loadRow
      dsimp only
      rw [if_neg hrowne, hfresh]
      simp only [Option.isSome_none, Bool.false_eq_true, if_false]
      rw [parseFields_encode hent.2.1]
      have hsorted :
          List.insertionSort pairLeP entries = entries :=
        (sorted_pairLe_of_tsLt hent.2.2).insertionSort_eq
      show Except.ok (⟨t ++ [(node, List.insertionSort pairLeP entries)]⟩ : Secrets) =
        Except.ok (⟨t ++ [(node, entries)]⟩ : Secrets)
      rw [hsorted]
    have hrec := load_save_aux rest (t ++ [(node, entries)])
      (by rw [← List.append_cons]; exact hnodup)
      (fun p hp => hok p (List.mem_cons_of_mem _ hp))
    simp only [Secrets.save, List.map_cons] at hrec ⊢
    unfold Secrets.load
    rw [hrow]
    dsimp only
    rw [hrec, ← List.append_cons]

/-- Loading the file written by `save` into a fresh store reproduces the
store exactly, with no error, whenever the store satisfies the `add`
invariant. -/
theorem load_save {s : Secrets} (h : SecretsInv s) :
    emptySecrets.load s.save = (s, none) := by
  have := load_save_aux s.secrets [] (by simpa using h.1) h.2
  simpa [emptySecrets] using this

/-! ## Splitting `load` across an append, and the error characterisation -/

theorem load_cons (s : Secrets) (row : List Bytes) (rest : List (List Bytes)) :
    s.load (row :: rest) =
      match s.loadRow row with
      | .ok s' => s'.load rest
      | .error e => (s, some e) := rfl

theorem load_append : ∀ (xs : List (List Bytes)) (s : Secrets)
    (ys : List (List Bytes)),
    s.load (xs ++ ys) =
      if (s.load xs).2 = none then (s.load xs).1.load ys else s.load xs
  | [], s, ys => by simp [Secrets.load]
  | row :: rest, s, ys => by
    rw [List.cons_append, load_cons, load_cons]
    cases h : s.loadRow row with
    | ok s' =>
      dsimp only
      exact load_append rest s' ys
    | error e =>
      dsimp only
      rw [if_neg (Option.some_ne_none e)]

theorem parseSecretField_isOk (f : Bytes) :
    (parseSecretField f).isOk = false ↔
      (splitByte colonByte f).length ≠ 2 := by
  unfold parseSecretField
  rcases splitByte colonByte f with _ | ⟨a, _ | ⟨b, _ | ⟨c, t⟩⟩⟩ <;>
    simp [Except.isOk, Except.toBool]

theorem parseFields_isOk (fields : List Bytes) :
    (parseFields fields).isOk = false ↔
      ∃ f ∈ fields, (splitByte colonByte f).length ≠ 2 := by
  induction fields with
  | nil => simp [parseFields, Except.isOk, Except.toBool]
  | cons f rest ih =>
    cases hf : parseSecretField f with
    | error ε =>
      have hbad : (splitByte colonByte f).length ≠ 2 :=
        (parseSecretField_isOk f).mp (by rw [hf]; rfl)
      constructor
      · intro _
        exact ⟨f, List.mem_cons_self f rest, hbad⟩
      · intro _
        unfold parseFields
        rw [hf]
        rfl
    | ok e =>
      have hgood : (splitByte colonByte f).length = 2 := by
        by_contra hne
        have h2 := (parseSecretField_isOk f).mpr hne
        rw [hf] at h2
        simp [Except.isOk, Except.toBool] at h2
      cases hrest : parseFields rest with
      | error ε' =>
        have hr := ih.mp (by rw [hrest]; rfl)
        constructor
        · intro _
          obtain ⟨f', hm, hb⟩ := hr
          exact ⟨f', List.mem_cons_of_mem f hm, hb⟩
        · intro _
          unfold parseFields
          rw [hf, hrest]
          rfl
      | ok es =>
        have hl : (parseFields (f :: rest)).isOk = true := by
          unfold parseFields
          rw [hf, hrest]
          rfl
        constructor
        · intro h'
          rw [hl] at h'
          cases h'
        · rintro ⟨f', hm, hb⟩
          rcases List.mem_cons.mp hm with rfl | hm'
          · exact absurd hgood hb
          · have h2 := ih.mpr ⟨f', hm', hb⟩
            rw [hrest] at h2
            simp [Except.isOk, Except.toBool] at h2

theorem loadRow_isOk_iff (s : Secrets) (row : List Bytes) :
    (s.loadRow row).isOk = false ↔ rowBad s row := by
  cases row with
  | nil => simp [Secrets.loadRow, rowBad, Except.isOk, Except.toBool]
  | cons node fields =>
    unfold Secrets.loadRow rowBad
    dsimp only
    by_cases hf : fields.isEmpty = true
    · rw [if_pos hf]
      have hfe : fields = [] := List.isEmpty_iff.mp hf
      simp [hfe, Except.isOk, Except.toBool]
    · rw [if_neg hf]
      have hne : fields ≠ [] := by
        intro h'
        exact hf (by simp [h'])
      by_cases hd : (assocFind node s.secrets).isSome = true
      · rw [if_pos hd]
        simp [Except.isOk, Except.toBool, hne, hd]
      · rw [if_neg hd]
        cases hp : parseFields fields with
        | error e =>
          have hex := (parseFields_isOk fields).mp (by rw [hp]; rfl)
          constructor
          · intro _
            exact ⟨hne, Or.inr hex⟩
          · intro _
            rfl
        | ok parsed =>
          have hnoex : ¬∃ f ∈ fields, (splitByte colonByte f).length ≠ 2 := by
            intro hex
            have h2 := (parseFields_isOk fields).mpr hex
            rw [hp] at h2
            simp [Except.isOk, Except.toBool] at h2
          constructor
          · intro h'
            exact Bool.noConfusion h'
          · rintro ⟨-, hd' | hex⟩
            · exact absurd hd' hd
            · exact absurd hex hnoex

/-- A row processed without error by `loadRow` is exactly a non-bad row. -/
theorem loadRow_ok_of_not_bad {s : Secrets} {row : List Bytes}
    (h : ¬rowBad s row) : ∃ s', s.loadRow row = .ok s' := by
  cases hr : s.loadRow row with
  | ok s' => exact ⟨s', rfl⟩
  | error e =>
    have := (loadRow_isOk_iff s row).mp (by rw [hr]; rfl)
    exact absurd this h

theorem load_error_iff : ∀ (rows : List (List Bytes)) (s : Secrets),
    (s.load rows).2.isSome = true ↔
      ∃ pre row post, rows = pre ++ row :: post ∧
        (s.load pre).2 = none ∧ rowBad (s.load pre).1 row
  | [], s => by
    constructor
    · intro h
      simp [Secrets.load] at h
    · rintro ⟨pre, row, post, h, -, -⟩
      exact (List.cons_ne_nil row post (List.append_eq_nil.mp h.symm).2).elim
  | row :: rest, s => by
    rw [load_cons]
    cases h : s.loadRow row with
    | error e =>
      dsimp only
      constructor
      · intro _
        exact ⟨[], row, rest, rfl, rfl,
          (loadRow_isOk_iff s row).mp (by rw [h]; rfl)⟩
      · intro _
        rfl
    | ok s' =>
      dsimp only
      constructor
      · intro hsome
        obtain ⟨pre, row', post, hdec, hclean, hbad⟩ :=
          (load_error_iff rest s').mp hsome
        refine ⟨row :: pre, row', post, by rw [hdec, List.cons_append], ?_, ?_⟩
        · rw [load_cons, h]
          exact hclean
        · rw [load_cons, h]
          exact hbad
      · rintro ⟨pre, row', post, hdec, hclean, hbad⟩
        cases pre with
        | nil =>
          rw [List.nil_append] at hdec
          injection hdec with h1 h2
          subst h1
          have hbb := (loadRow_isOk_iff s row).mpr hbad
          rw [h] at hbb
          exact Bool.noConfusion hbb
        | cons p pre' =>
          rw [List.cons_append] at hdec
          injection hdec with h1 h2
          subst h1
          rw [load_cons, h] at hclean hbad
          exact (load_error_iff rest s').mpr ⟨pre', row', post, h2, hclean, hbad⟩

/-! ## Correctness of the decimal rendering of timestamps -/

theorem natDigitsAux_decimalVal :
    ∀ (fuel n : Nat), n < 10 ^ fuel → ∀ (acc : Bytes),
      decimalVal (natDigitsAux fuel n acc) = decimalValFrom n acc
  | 0, n, h, acc => by
    have hn : n = 0 := by
      simp at h
      omega
    subst hn
    rfl
  | fuel + 1, n, h, acc => by
    unfold natDigitsAux
    by_cases hn : n < 10
    · rw [if_pos hn]
      unfold decimalVal decimalValFrom
      rw [List.foldl_cons]
      have : 0 * 10 + (digitByte n - 48) = n := by
        unfold digitByte
        omega
      rw [this]
    · rw [if_neg hn]
      have h10 : n / 10 < 10 ^ fuel := by
        rw [Nat.div_lt_iff_lt_mul (by omega : 0 < 10)]
        rw [pow_succ] at h
        exact h
      rw [natDigitsAux_decimalVal fuel (n / 10) h10]
      unfold decimalValFrom
      rw [List.foldl_cons]
      have : n / 10 * 10 + (digitByte (n % 10) - 48) = n := by
        unfold digitByte
        omega
      rw [this]

theorem decimalVal_natDigits (n : Nat) : decimalVal (natDigits n) = n := by
  have hlt : n < 10 ^ (n + 1) := by
    calc n < 10 ^ n := Nat.lt_pow_self (by omega) n
    _ ≤ 10 ^ (n + 1) := Nat.pow_le_pow_right (by omega) (Nat.le_succ n)
  have h := natDigitsAux_decimalVal (n + 1) n hlt []
  unfold decimalValFrom at h
  simpa [natDigits] using h

/-! ## Sortedness of loaded stores -/

theorem loadRow_sorted {s s' : Secrets} {row : List Bytes}
    (h : s.loadRow row = .ok s')
    (hs : ∀ p ∈ s.secrets, List.Sorted pairLeP p.2) :
    ∀ p ∈ s'.secrets, List.Sorted pairLeP p.2 := by
  cases row with
  | nil =>
    injection h with h
    subst h
    exact hs
  | cons node fields =>
    unfold Secrets.loadRow at h
    dsimp only at h
    by_cases hf : fields.isEmpty = true
    · rw [if_pos hf] at h
      injection h with h
      subst h
      exact hs
    · rw [if_neg hf] at h
      by_cases hd : (assocFind node s.secrets).isSome = true
      · rw [if_pos hd] at h
        cases h
      · rw [if_neg hd] at h
        cases hp : parseFields fields with
        | error e =>
          rw [hp] at h
          exact Except.noConfusion h
        | ok parsed =>
          rw [hp] at h
          injection h with h
          subst h
          intro p hp'
          rcases List.mem_append.mp hp' with hm | hm
          · exact hs p hm
          · rw [List.mem_singleton.mp hm]
            exact List.sorted_insertionSort pairLeP parsed

theorem load_sorted : ∀ (rows : List (List Bytes)) (s : Secrets),
    (∀ p ∈ s.secrets, List.Sorted pairLeP p.2) →
    ∀ p ∈ (s.load rows).1.secrets, List.Sorted pairLeP p.2
  | [], _, hs => hs
  | row :: rest, s, hs => by
    rw [load_cons]
    cases h : s.loadRow row with
    | ok s' =>
      dsimp only
      exact load_sorted rest s' (loadRow_sorted h hs)
    | error e =>
      dsimp only
      exact hs

theorem get_eq_stored {s : Secrets} {node : Bytes} {l : List (Bytes × Bytes)}
    (h : assocFind node s.secrets = some l) :
    (s.get node).1 = l.map Prod.snd := by
  unfold Secrets.get Secrets.dread
  rw [h]

/-! ## Reduction lemmas for `add` -/

theorem add_eq (s : Secrets) (node : Bytes) (size now : Nat) (rand : Bytes) :
    s.add node size now rand =
      match ((s.dread node).1).getLast? with
      | some last =>
        if bytesLeB (natDigits now) last.1 = true then
          .error "You can only add one secret per second"
        else .ok ⟨assocSet node
          ((s.dread node).1 ++ [(natDigits now, (b2aHex rand).take size)])
          (s.dread node).2.secrets⟩
      | none => .ok ⟨assocSet node
          ((s.dread node).1 ++ [(natDigits now, (b2aHex rand).take size)])
          (s.dread node).2.secrets⟩ := rfl

theorem dread_present {s : Secrets} {node : Bytes} {l : List (Bytes × Bytes)}
    (h : assocFind node s.secrets = some l) : s.dread node = (l, s) := by
  unfold Secrets.dread
  rw [h]

theorem dread_mem_keys (s : Secrets) (node : Bytes) :
    node ∈ (s.dread node).2.secrets.map Prod.fst := by
  unfold Secrets.dread
  cases h : assocFind node s.secrets with
  | some l =>
    dsimp only
    exact List.mem_map_of_mem Prod.fst (assocFind_some_mem h)
  | none =>
    dsimp only
    simp

theorem assocFind_assocSet_self {node : Bytes} {v : List (Bytes × Bytes)} :
    ∀ {l : List (Bytes × List (Bytes × Bytes))}, node ∈ l.map Prod.fst →
      assocFind node (assocSet node v l) = some v
  | [], h => by simp at h
  | (k, w) :: rest, h => by
    by_cases hk : k = node
    · subst hk
      simp [assocSet, assocFind]
    · have hr : node ∈ rest.map Prod.fst := by
        rcases List.mem_cons.mp h with he | hm
        · exact absurd he.symm hk
        · exact hm
      simp only [assocSet, if_neg hk, assocFind]
      exact assocFind_assocSet_self hr

/-- After a successful `add`, the node's stored list is the old list with
the new `(timestamp, truncated-hex-secret)` entry appended. -/
theorem add_ok_stored {s s1 : Secrets} {node : Bytes} {size now : Nat}
    {rand : Bytes} (h : s.add node size now rand = .ok s1) :
    assocFind node s1.secrets =
      some ((s.dread node).1 ++
        [(natDigits now, (b2aHex rand).take size)]) := by
  rw [add_eq] at h
  cases hlast : ((s.dread node).1).getLast? with
  | some last =>
    rw [hlast] at h
    dsimp only at h
    by_cases hle : bytesLeB (natDigits now) last.1 = true
    · rw [if_pos hle] at h
      cases h
    · rw [if_neg hle] at h
      injection h with h
      subst h
      exact assocFind_assocSet_self (dread_mem_keys s node)
  | none =>
    rw [hlast] at h
    dsimp only at h
    injection h with h
    subst h
    exact assocFind_assocSet_self (dread_mem_keys s node)

/-! ## Heap lemmas for the `FixedSecrets` model -/

theorem read_alloc_new (h : ListHeap) (v : List Bytes) :
    (h.alloc v).2.read (h.alloc v).1 = v := by
  unfold ListHeap.alloc ListHeap.read
  simp [List.getElem?_concat_length]

theorem read_alloc_old (h : ListHeap) (v : List Bytes) {r : ListRef}
    (hr : r < h.cells.length) : (h.alloc v).2.read r = h.read r := by
  unfold ListHeap.alloc ListHeap.read
  simp [List.getElem?_append_left hr]

theorem read_write_ne (h : ListHeap) (v : List Bytes) {r r' : ListRef}
    (hne : r ≠ r') : (h.write r' v).read r = h.read r := by
  unfold ListHeap.write ListHeap.read
  simp [List.getElem?_set_ne (Ne.symm hne)]

theorem write_length (h : ListHeap) (r : ListRef) (v : List Bytes) :
    (h.write r v).cells.length = h.cells.length := by
  unfold ListHeap.write
  simp

/-! ## Length and hex lemmas for SHA-256 and HKDF -/

theorem sha256_length (msg : Bytes) : (sha256 msg).length = 32 := by
  unfold sha256 be32
  simp

theorem hmacSha256_length (key msg : Bytes) :
    (hmacSha256 key msg).length = 32 :=
  sha256_length _

theorem hkdfExpandGo_length (prk info : Bytes) :
    ∀ (n i : Nat) (t acc : Bytes),
      (hkdfExpandGo prk info n i t acc).length = acc.length + 32 * n
  | 0, _, _, acc => by simp [hkdfExpandGo]
  | n + 1, i, t, acc => by
    unfold hkdfExpandGo
    rw [hkdfExpandGo_length prk info n (i + 1)]
    simp [hmacSha256_length]
    ring

theorem hkdfExpand_length (prk info : Bytes) (size : Nat) :
    (hkdfExpand prk info size).length = size := by
  unfold hkdfExpand
  rw [List.length_take, hkdfExpandGo_length]
  simp only [List.length_nil, Nat.zero_add]
  omega

theorem HKDF_length (secret info : Bytes) (size : Nat) :
    (HKDF secret size info).length = size :=
  hkdfExpand_length _ _ _

/-! ## The claims -/

/-- C1: for every `Secrets` store populated from empty by successful `add`
calls (the success of each call enforcing the one-second rotation limit),
`save` followed by `load` into a fresh store succeeds and yields `get(node)`
results identical to the pre-save store's, for every node. -/
theorem c1_save_load_roundtrip (ops : List AddOp) (s : Secrets)
    (h : applyAdds emptySecrets ops = some s) :
    (emptySecrets.load s.save).2 = none ∧
    ∀ node, ((emptySecrets.load s.save).1.get node).1 = (s.get node).1 := by
  have hinv := applyAdds_inv h secretsInv_empty
  rw [load_save hinv]
  exact ⟨rfl, fun node => rfl⟩

/-- Witness for C1: the concrete trace `c1Ops` produces `c1Store`, whose
save/load round trip reproduces `get` on node `[112]`. -/
theorem c1_save_load_roundtrip_witness :
    (emptySecrets.load c1Store.save).2 = none ∧
    ((emptySecrets.load c1Store.save).1.get [112]).1 =
      (c1Store.get [112]).1 :=
  ⟨(c1_save_load_roundtrip c1Ops c1Store (by decide)).1,
   (c1_save_load_roundtrip c1Ops c1Store (by decide)).2 [112]⟩

/-- C2 is false as stated: loading the row `n,9:a,10:b` succeeds, but the
stored list for `n` is `[("10", b), ("9", a)]` — descending in the numeric
value of the timestamps (10 before 9), because Python sorts the timestamp
byte strings lexicographically — and `get` returns `[b, a]`, newest
first. -/
theorem c2_numeric_order_counterexample :
    (emptySecrets.load c2Rows).2 = none ∧
    assocFind [110] (emptySecrets.load c2Rows).1.secrets =
      some [([49, 48], [98]), ([57], [97])] ∧
    ¬tsNumAscending [([49, 48], [98]), ([57], [97])] ∧
    ((emptySecrets.load c2Rows).1.get [110]).1 = [[98], [97]] := by
  refine ⟨by decide, by decide, ?_, by decide⟩
  decide

/-- C2 (amended): for every store whose lists are sorted in the
lexicographic byte-string order of `(timestamp, secret)` pairs (as all
loaded stores are), `load` keeps every node's stored list sorted in that
lexicographic order — which coincides with the numeric order exactly when
the timestamp strings have equal digit length — and `get` returns the
secrets in the stored order. -/
theorem c2_load_sorted_lex (s : Secrets) (rows : List (List Bytes))
    (hs : ∀ p ∈ s.secrets, List.Sorted pairLeP p.2) :
    (∀ p ∈ (s.load rows).1.secrets, List.Sorted pairLeP p.2) ∧
    ∀ node l, assocFind node (s.load rows).1.secrets = some l →
      ((s.load rows).1.get node).1 = l.map Prod.snd := by
  refine ⟨load_sorted rows s hs, ?_⟩
  intro node l h
  exact get_eq_stored h

/-- Witness for the amended C2: the loaded `c2Rows` store returns node
`n`'s secrets in stored (lexicographic) order. -/
theorem c2_load_sorted_lex_witness :
    ((emptySecrets.load c2Rows).1.get [110]).1 =
      ([([49, 48], [98]), ([57], [97])] :
        List (Bytes × Bytes)).map Prod.snd :=
  (c2_load_sorted_lex emptySecrets c2Rows
    (by intro p hp; cases hp)).2 [110] _ (by decide)

/-- C3: `load` raises a `FormatError` if and only if some row with at least
two fields has a node already present in the store built so far (duplicate
node) or a secret field that does not split into exactly two parts on the
colon; and every row with fewer than two fields is skipped, leaving the
store unchanged and raising nothing. -/
theorem c3_load_error_iff (s : Secrets) (rows : List (List Bytes)) :
    ((s.load rows).2.isSome = true ↔
      ∃ pre row post, rows = pre ++ row :: post ∧
        (s.load pre).2 = none ∧ rowBad (s.load pre).1 row) ∧
    ∀ row, row.length < 2 → s.loadRow row = .ok s := by
  refine ⟨load_error_iff rows s, ?_⟩
  intro row hlen
  match row with
  | [] => rfl
  | [node] => rfl
  | a :: b :: t =>
    simp at hlen
    omega

/-- Witness for C3: a one-field row is skipped, leaving the store
unchanged. -/
theorem c3_load_error_iff_witness :
    emptySecrets.loadRow [[49]] = .ok emptySecrets :=
  (c3_load_error_iff emptySecrets []).2 [[49]] (by decide)

/-- C4 is false as stated: after an `add` for node `p` at second 9 (stored
timestamp byte string `"9"`), an `add` at second 10 — a strictly greater
integer second — still fails, because Python compares the timestamp byte
strings lexicographically and `"10" <= "9"`. -/
theorem c4_rotation_numeric_counterexample :
    applyAdds emptySecrets [⟨[112], 1, 9, [7]⟩] =
      some ⟨[([112], [([57], [48])])]⟩ ∧
    decimalVal [57] = 9 ∧ 9 < 10 ∧
    (Secrets.mk [([112], [([57], [48])])]).add [112] 1 10 [7] =
      .error "You can only add one secret per second" := by
  decide

/-- C4 (amended): `add` fails exactly when the node's list is nonempty and
the decimal byte string of the current second is lexicographically `<=` the
last stored timestamp byte string (which agrees with the numeric comparison
exactly when the digit strings have equal length); the first `add` for a
node with no stored secrets always succeeds, and a second `add` for the
same node within the same integer second always fails. -/
theorem c4_rotation_check_lexicographic (s : Secrets) (node : Bytes)
    (size now : Nat) (rand : Bytes) :
    ((s.add node size now rand).isOk = false ↔
      ∃ last, ((s.dread node).1).getLast? = some last ∧
        bytesLeB (natDigits now) last.1 = true) ∧
    ((s.dread node).1 = [] → (s.add node size now rand).isOk = true) ∧
    (∀ s1, s.add node size now rand = .ok s1 →
      ∀ size2 rand2, (s1.add node size2 now rand2).isOk = false) := by
  refine ⟨?_, ?_, ?_⟩
  · rw [add_eq]
    cases hlast : ((s.dread node).1).getLast? with
    | some last =>
      dsimp only
      by_cases hle : bytesLeB (natDigits now) last.1 = true
      · rw [if_pos hle]
        constructor
        · intro _
          exact ⟨last, rfl, hle⟩
        · intro _
          rfl
      · rw [if_neg hle]
        constructor
        · intro h'
          exact Bool.noConfusion h'
        · rintro ⟨l', hl', hle'⟩
          injection hl' with hl'
          subst hl'
          exact absurd hle' hle
    | none =>
      dsimp only
      constructor
      · intro h'
        exact Bool.noConfusion h'
      · rintro ⟨l', hl', -⟩
        exact Option.noConfusion hl'
  · intro hempty
    rw [add_eq, hempty]
    rfl
  · intro s1 h1 size2 rand2
    have hfind := add_ok_stored h1
    rw [add_eq, dread_present hfind]
    dsimp only
    rw [List.getLast?_concat]
    dsimp only
    rw [if_pos (bytesLeB_refl (natDigits now))]
    rfl

/-- Witness for the amended C4: the first `add` for an unknown node
succeeds. -/
theorem c4_rotation_check_witness :
    (emptySecrets.add [112] 1 5 [7]).isOk = true :=
  (c4_rotation_check_lexicographic emptySecrets [112] 1 5 [7]).2.1 (by decide)

/-- C7 is false as stated: `add(node, size=1)` with random byte `0xab`
stores the secret `"a"` — the hex encoding `"ab"` of the random bytes
truncated to `size` characters (`[:size]` in the source) — not the full
2-character hex encoding. -/
theorem c7_full_hex_counterexample :
    emptySecrets.add [112] 1 5 [171] =
      .ok ⟨[([112], [([53], [97])])]⟩ ∧
    b2aHex [171] = [97, 98] ∧
    (b2aHex [171]).length = 2 * 1 ∧
    ([97] : Bytes) ≠ b2aHex [171] := by
  decide

/-- C7 (amended): a successful `add(node, size)` appends to the node's list
the pair of the decimal rendering of the current integer second and the
hex encoding of the random bytes truncated to the first `size` characters
(so `min size (2 * |rand|)` hex characters, all hex digits), not the full
`2 * size`-character encoding. -/
theorem c7_add_appends_truncated_hex (s : Secrets) (node : Bytes)
    (size now : Nat) (rand : Bytes) (s' : Secrets)
    (h : s.add node size now rand = .ok s') :
    assocFind node s'.secrets =
      some ((s.dread node).1 ++
        [(natDigits now, (b2aHex rand).take size)]) ∧
    ((b2aHex rand).take size).length = min size (2 * rand.length) ∧
    (∀ b ∈ (b2aHex rand).take size, isHexDigitByte b = true) ∧
    decimalVal (natDigits now) = now := by
  refine ⟨add_ok_stored h, ?_, ?_, decimalVal_natDigits now⟩
  · rw [List.length_take, b2aHex_length]
  · intro b hb
    exact b2aHex_hex b (List.mem_of_mem_take hb)

/-- Witness for the amended C7: a concrete `add` whose stored entry,
length, hex-digit and timestamp properties are all checked. -/
theorem c7_add_appends_witness :
    assocFind [112] (Secrets.mk [([112], [([53], [97])])]).secrets =
      some ((emptySecrets.dread [112]).1 ++
        [(natDigits 5, (b2aHex [171]).take 1)]) ∧
    ((b2aHex [171]).take 1).length = min 1 (2 * ([171] : Bytes).length) ∧
    (∀ b ∈ (b2aHex [171]).take 1, isHexDigitByte b = true) ∧
    decimalVal (natDigits 5) = 5 :=
  c7_add_appends_truncated_hex emptySecrets [112] 1 5 [171] _ (by decide)

/-- C9: `load` is not atomic — when a later row fails, the rows committed
before it stay in the live store: the state equals the state after the
clean prefix, so `get` and `keys` still see the earlier rows' data. -/
theorem c9_load_partial_commit (s : Secrets) (pre : List (List Bytes))
    (row : List Bytes) (post : List (List Bytes)) (e : LoadError)
    (hpre : (s.load pre).2 = none)
    (herr : (s.load pre).1.loadRow row = .error e) :
    (s.load (pre ++ row :: post)).1 = (s.load pre).1 ∧
    (s.load (pre ++ row :: post)).2 = some e ∧
    (∀ node, ((s.load (pre ++ row :: post)).1.get node).1 =
      ((s.load pre).1.get node).1) ∧
    (s.load (pre ++ row :: post)).1.keys = (s.load pre).1.keys := by
  have hsplit := load_append pre s (row :: post)
  rw [if_pos hpre, load_cons, herr] at hsplit
  dsimp only at hsplit
  rw [hsplit]
  exact ⟨rfl, rfl, fun node => rfl, rfl⟩

/-- Witness for C9: loading `n,5:a` then the duplicate row `n,5:a` fails
with the duplicate-node error but keeps the first row committed. -/
theorem c9_load_partial_commit_witness :
    (emptySecrets.load ([[[110], [53, 58, 97]]] ++
      [[110], [53, 58, 97]] :: [])).1 =
      (emptySecrets.load [[[110], [53, 58, 97]]]).1 ∧
    (emptySecrets.load ([[[110], [53, 58, 97]]] ++
      [[110], [53, 58, 97]] :: [])).2 = some .duplicateNode :=
  ⟨(c9_load_partial_commit emptySecrets [[[110], [53, 58, 97]]]
      [[110], [53, 58, 97]] [] .duplicateNode (by decide) (by decide)).1,
   (c9_load_partial_commit emptySecrets [[[110], [53, 58, 97]]]
      [[110], [53, 58, 97]] [] .duplicateNode (by decide) (by decide)).2.1⟩

/-- C10: `get` on a node absent from the store returns the empty list but
mutates the `defaultdict`: the node is inserted with an empty list, so
`keys()` afterwards includes it. -/
theorem c10_get_unknown_inserts (s : Secrets) (node : Bytes)
    (h : assocFind node s.secrets = none) :
    (s.get node).1 = [] ∧ (s.get node).2.keys = s.keys ++ [node] := by
  unfold Secrets.get Secrets.dread
  rw [h]
  dsimp only
  exact ⟨rfl, by simp [Secrets.keys]⟩

/-- Witness for C10: `get` of the unknown node `[5]` on a one-node store
returns nothing but adds `[5]` to the keys. -/
theorem c10_get_unknown_inserts_witness :
    ((Secrets.mk [([1], [([53], [97])])]).get [5]).1 = [] ∧
    ((Secrets.mk [([1], [([53], [97])])]).get [5]).2.keys =
      (Secrets.mk [([1], [([53], [97])])]).keys ++ [[5]] :=
  c10_get_unknown_inserts ⟨[([1], [([53], [97])])]⟩ [5] (by decide)

/-- C5: `DerivedSecrets.get` is deterministic — for equal master-secret
lists and equal nodes, two calls return identical results.  The embedding
of `get`, unlike that of `add`, takes no randomness input: it is a pure
function of the master secrets and the node, built from HKDF over
HMAC-SHA-256. -/
theorem c5_derived_deterministic (m1 m2 : DerivedSecrets) (n1 n2 : Bytes)
    (hm : m1 = m2) (hn : n1 = n2) : m1.get n1 = m2.get n2 := by
  rw [hm, hn]

/-- Witness for C5: two calls with the master list `["a"]` and node `"b"`
agree. -/
theorem c5_derived_deterministic_witness :
    (DerivedSecrets.mk [[97]]).get [98] =
      (DerivedSecrets.mk [[97]]).get [98] :=
  c5_derived_deterministic ⟨[[97]]⟩ ⟨[[97]]⟩ [98] [98] rfl rfl

/-- C6 is false as stated: with the single master secret `"a"` (one
character, so `int(len/2) = 0` derived bytes), the derived hex secret is
empty — length 0, not the master's length 1. -/
theorem c6_derived_length_counterexample :
    (((DerivedSecrets.mk [[97]]).get [98]).getD 0 []).length = 0 ∧
    ([97] : Bytes).length = 1 ∧ (0 : Nat) ≠ 1 := by
  refine ⟨?_, rfl, by decide⟩
  rfl

/-- C6 (amended): `get` returns one hex-encoded derived secret per master
secret, in master-secret order, and the derived secret for master `m` has
exactly `2 * (|m| / 2)` hex characters — equal to `|m|` exactly when `|m|`
is even, as it is for genuinely hex-encoded masters. -/
theorem c6_derived_length (ds : DerivedSecrets) (node : Bytes) :
    (ds.get node).length = ds.masterSecrets.length ∧
    ∀ (i : Nat) (m : Bytes), ds.masterSecrets[i]? = some m →
      ∃ d, (ds.get node)[i]? = some d ∧
        d.length = 2 * (m.length / 2) ∧
        ∀ b ∈ d, isHexDigitByte b = true := by
  constructor
  · unfold DerivedSecrets.get
    simp
  · intro i m hm
    refine ⟨b2aHex (HKDF m (m.length / 2) (hkdfInfoNodeSecret ++ node)),
      ?_, ?_, ?_⟩
    · unfold DerivedSecrets.get
      simp [List.getElem?_map, hm]
    · rw [b2aHex_length, HKDF_length]
    · intro b hb
      exact b2aHex_hex b hb

/-- Witness for the amended C6: the derived secret for the master `"a"`
(odd length 1) exists at index 0 and has `2 * (1 / 2) = 0` characters. -/
theorem c6_derived_length_witness :
    ∃ d, ((DerivedSecrets.mk [[97]]).get [98])[0]? = some d ∧
      d.length = 2 * (([97] : Bytes).length / 2) ∧
      ∀ b ∈ d, isHexDigitByte b = true :=
  (c6_derived_length ⟨[[97]]⟩ [98]).2 0 [97] (by decide)

/-- C8: `FixedSecrets.get` ignores its node argument and returns the
configured secret list (the constructor's list object, or the whitespace
split of a string argument) as a fresh copy: overwriting a returned list
object does not change what later `get` calls return; `keys()` is always
empty. -/
theorem c8_fixed_secrets (h : ListHeap) (fs : FixedSecrets) (n1 n2 : Bytes)
    (v : List Bytes) (href : fs.ref < h.cells.length) :
    ((fs.get h n1).2.read (fs.get h n1).1 = h.read fs.ref ∧
     (fs.get h n2).2.read (fs.get h n2).1 = h.read fs.ref) ∧
    (fs.get ((fs.get h n1).2.write (fs.get h n1).1 v) n2).2.read
      (fs.get ((fs.get h n1).2.write (fs.get h n1).1 v) n2).1 =
      h.read fs.ref ∧
    fs.keys = [] ∧
    (∀ s, (FixedSecrets.ofString h s).2.read
      (FixedSecrets.ofString h s).1.ref = splitWs s) := by
  have hget : ∀ (h' : ListHeap) (n : Bytes),
      (fs.get h' n).2.read (fs.get h' n).1 = h'.read fs.ref :=
    fun h' n => read_alloc_new h' (h'.read fs.ref)
  have hmut : ((fs.get h n1).2.write (fs.get h n1).1 v).read fs.ref =
      h.read fs.ref := by
    show ((h.alloc (h.read fs.ref)).2.write (h.alloc (h.read fs.ref)).1
      v).read fs.ref = h.read fs.ref
    rw [read_write_ne _ _ (by exact Nat.ne_of_lt href),
      read_alloc_old _ _ href]
  refine ⟨⟨hget h n1, hget h n2⟩, ?_, rfl, ?_⟩
  · rw [hget _ n2, hmut]
  · intro s
    exact read_alloc_new h (splitWs s)

/-- Witness for C8: a one-cell heap holding the configured list `[["a"]]`,
with the list-valued conjuncts checked after applying the theorem. -/
theorem c8_fixed_secrets_witness :
    ((FixedSecrets.mk 0).get ⟨[[[97]]]⟩ [1]).2.read
      ((FixedSecrets.mk 0).get ⟨[[[97]]]⟩ [1]).1 =
      (ListHeap.mk [[[97]]]).read 0 ∧
    (FixedSecrets.mk 0).keys = [] :=
  ⟨((c8_fixed_secrets ⟨[[[97]]]⟩ ⟨0⟩ [1] [2] [] (by decide)).1).1,
   (c8_fixed_secrets ⟨[[[97]]]⟩ ⟨0⟩ [1] [2] [] (by decide)).2.2.1⟩
